import Mathlib

/-!
Shallow embedding of `src/1682/gas_male/helpers.py` (class `SummingConstraintSet`),
the constraint-summation helper of convexengineering/library.

The gpkit modeling library is an external dependency (not part of this repository);
per the spec it is modelled abstractly: a variable is identified by a key whose
descriptor carries a name, a provenance chain of model names, units and a label;
`model[varname]` is a tagged lookup returning a single variable or an ordered list;
`lhs >= sum(...)` is a constraint record holding the lhs and the set of summed
monomial variables (`p_lt`); `model.flat()` is the recursive flattening of the
model's constraint tree that yields nested constraint sets as well.
Python exceptions (the `assert len(mvars) == 1` AssertionError and the IndexError
from `v.key.models[0]` on an empty chain) are modelled with `Except`.
-/

namespace GasMaleHelpers

/-- The descriptor of a gpkit variable key (`vk.descr`): name, provenance chain
of declaring model names (`models`), units and label. -/
structure Descr where
  name : String
  models : List String
  units : String
  label : String
deriving DecidableEq, Repr

/-- A gpkit `VarKey`: its identity is exactly its descriptor. -/
structure VarKey where
  descr : Descr
deriving DecidableEq, Repr

/-- `v.key.models`: the provenance chain of the key. -/
def VarKey.models (k : VarKey) : List String :=
  k.descr.models

/-- A gpkit variable (monomial) carrying its key. -/
structure Variable where
  key : VarKey
deriving DecidableEq, Repr

/-- `Variable(**vk.descr)`: a fresh variable constructed from a descriptor. -/
def mkVariable (d : Descr) : Variable :=
  ⟨⟨d⟩⟩

/-- Result of `model[varname]`: either a single value (no `__len__`) or an
ordered collection of same-named variables. -/
inductive Lookup where
  | single (v : Variable)
  | many (vs : List Variable)

/-- The coercion in `__init__`: `if not hasattr(mvars, "__len__"): mvars = [mvars]`. -/
def coerce : Lookup → List Variable
  | .single v => [v]
  | .many vs => vs

/-- A node of a model's constraint tree, as seen by `model.flat()`:
a plain constraint (no `summedvars` attribute), a nested
`SummingConstraintSet` recorded with its `summedvars` set (its single inner
posynomial constraint is plain), or a nested plain `ConstraintSet` with
children. -/
inductive Constraint where
  | plain : Constraint
  | summing (sv : Finset VarKey) : Constraint
  | cset (children : List Constraint) : Constraint

mutual

/-- `ConstraintSet.flat(constraintsets=True)` applied to one child: yields the
child and, when it is a constraint set, everything inside it recursively.
A `SummingConstraintSet` holds exactly one plain posynomial constraint, which
flattening also yields. -/
def Constraint.flatten : Constraint → List Constraint
  | .plain => [.plain]
  | .summing sv => [.summing sv, .plain]
  | .cset children => .cset children :: flattenList children

/-- Flattening of a list of children, in order. -/
def flattenList : List Constraint → List Constraint
  | [] => []
  | c :: cs => c.flatten ++ flattenList cs

end

/-- The `summedvars` sets of the nested `SummingConstraintSet`s yielded by
`model.flat()`: the nodes with a `summedvars` attribute. -/
def summedSetsOf (cs : List Constraint) : List (Finset VarKey) :=
  (flattenList cs).filterMap fun c =>
    match c with
    | .summing sv => some sv
    | _ => none

/-- A gpkit model, restricted to what `SummingConstraintSet.__init__` uses:
its `name`, the named-variable lookup `model[varname]`, and its constraint
tree (flattened by `model.flat()`). -/
structure Model where
  name : String
  lookup : String → Lookup
  constraints : List Constraint

/-- The two exceptions construction can raise: the IndexError from
`v.key.models[0]` on an empty provenance chain, and the AssertionError from
`assert len(mvars) == 1`. -/
inductive Err where
  | indexError
  | assertionError
deriving DecidableEq, Repr

/-- The list comprehension `[v for v in mvars if v.key.models[0] == model.name]`:
keeps the variables whose provenance chain's first entry is `mname`, and raises
IndexError at the first candidate with an empty chain. -/
def depthOneFilter (mname : String) : List Variable → Except Err (List Variable)
  | [] => .ok []
  | v :: vs =>
    match v.key.models with
    | [] => .error .indexError
    | m :: _ =>
      (depthOneFilter mname vs).map fun rest =>
        if m = mname then v :: rest else rest

/-- The per-model loop of `__init__`: for each model in order, look up
`varname`, coerce to a list, apply the depth-one filter, assert exactly one
match, union its key into `summedvars`, and union the `summedvars` of every
nested `SummingConstraintSet` found by `model.flat()` into `alreadysummed`. -/
def constructLoop (varname : String) :
    List Model → Finset VarKey → Finset VarKey →
    Except Err (Finset VarKey × Finset VarKey)
  | [], summedvars, alreadysummed => .ok (summedvars, alreadysummed)
  | model :: rest, summedvars, alreadysummed =>
    match depthOneFilter model.name (coerce (model.lookup varname)) with
    | .error e => .error e
    | .ok mvars =>
      if mvars.length = 1 then
        constructLoop varname rest
          (summedvars ∪ (mvars.map Variable.key).toFinset)
          ((summedSetsOf model.constraints).foldl (fun a s => a ∪ s) alreadysummed)
      else .error .assertionError

/-- The set of keys `__init__` computes before building the constraint:
the seeded explicit keys and the matched keys, minus `alreadysummed`.
`extraVars` is the `variables` argument of the Python constructor
(`variables` is reserved in Lean). -/
def computedSummedvars (varname : String) (models : List Model)
    (extraVars : List Variable) : Except Err (Finset VarKey) :=
  (constructLoop varname models ((extraVars.map Variable.key).toFinset) ∅).map
    fun p => p.1 \ p.2

/-- The synthesized posynomial inequality `lhs >= sum(terms)`: `p_lt` is the
set of monomial variables on the summed (less-than) side; the empty set stands
for the empty sum `0`. -/
structure PosyIneq (L : Type) where
  lhs : L
  p_lt : Finset Variable
deriving DecidableEq

/-- A `SummingConstraintSet`: a constraint set holding its list of constraints
(by construction a single synthesized inequality). -/
structure SummingConstraintSet (L : Type) where
  constraints : List (PosyIneq L)
deriving DecidableEq

/-- `SummingConstraintSet.__init__`: compute `summedvars`, then store the one
constraint `lhs >= sum(Variable(**vk.descr) for vk in summedvars)`. -/
def SummingConstraintSet.construct {L : Type} (lhs : L) (varname : String)
    (models : List Model) (extraVars : List Variable) :
    Except Err (SummingConstraintSet L) :=
  (computedSummedvars varname models extraVars).map fun final =>
    ⟨[⟨lhs, final.image fun vk => mkVariable vk.descr⟩]⟩

/-- The `summedvars` property: `set(self[0].p_lt.varkeys)`, recomputed from the
stored constraint each time (an empty constraint list, unreachable for a
constructed object, yields the empty set). -/
def SummingConstraintSet.summedvars {L : Type} (s : SummingConstraintSet L) :
    Finset VarKey :=
  match s.constraints.head? with
  | some c => c.p_lt.image Variable.key
  | none => ∅

/-- Spec-side predicate: some candidate returned by `model[varname]` has an
empty provenance chain. -/
def hasEmptyChain (varname : String) (m : Model) : Prop :=
  ∃ v ∈ coerce (m.lookup varname), v.key.models = []

/-- Spec-side predicate: the sub-model exposes exactly one variable under
`varname` whose provenance chain's first entry is the sub-model's own name. -/
def exposesExactlyOne (varname : String) (m : Model) : Prop :=
  ((coerce (m.lookup varname)).filter
    (fun v => decide (v.key.models.head? = some m.name))).length = 1

instance (varname : String) (m : Model) :
    Decidable (hasEmptyChain varname m) := by
  unfold hasEmptyChain
  infer_instance

instance (varname : String) (m : Model) :
    Decidable (exposesExactlyOne varname m) := by
  unfold exposesExactlyOne
  infer_instance

/-- The union of the `summedvars` of every nested `SummingConstraintSet` found
by flattening each listed sub-model's constraint tree. -/
def nestedAll (models : List Model) : Finset VarKey :=
  (models.flatMap fun m => summedSetsOf m.constraints).foldr (· ∪ ·) ∅

/-- The keys of each sub-model's depth-one matched variables: for every
listed sub-model, the keys of the candidates whose provenance chain's first
entry is that sub-model's own name. -/
def matchedKeys (varname : String) (models : List Model) : Finset VarKey :=
  (models.flatMap fun m => ((coerce (m.lookup varname)).filter
    (fun v => decide (v.key.models.head? = some m.name))).map
      Variable.key).toFinset

/-- Decidable equality on `Except`, so that concrete runs of the constructor
can be checked by `decide`. -/
instance instDecEqExcept {ε α : Type} [DecidableEq ε] [DecidableEq α] :
    DecidableEq (Except ε α) := fun a b =>
  match a, b with
  | .error e, .error f =>
    if h : e = f then .isTrue (by rw [h])
    else .isFalse (by intro hc; cases hc; exact h rfl)
  | .error _, .ok _ => .isFalse (by intro hc; exact Except.noConfusion hc)
  | .ok _, .error _ => .isFalse (by intro hc; exact Except.noConfusion hc)
  | .ok x, .ok y =>
    if h : x = y then .isTrue (by rw [h])
    else .isFalse (by intro hc; cases hc; exact h rfl)

/-! ### Basic lemmas -/

theorem mem_foldl_union (l : List (Finset VarKey)) (a : Finset VarKey)
    (x : VarKey) :
    x ∈ l.foldl (fun a s => a ∪ s) a ↔ x ∈ a ∨ ∃ s ∈ l, x ∈ s := by
  induction l generalizing a with
  | nil => simp
  | cons s rest ih =>
    simp only [List.foldl_cons, ih, Finset.mem_union, List.mem_cons]
    constructor
    · rintro ((h | h) | ⟨t, ht, hx⟩)
      · exact Or.inl h
      · exact Or.inr ⟨s, Or.inl rfl, h⟩
      · exact Or.inr ⟨t, Or.inr ht, hx⟩
    · rintro (h | ⟨t, (rfl | ht), hx⟩)
      · exact Or.inl (Or.inl h)
      · exact Or.inl (Or.inr hx)
      · exact Or.inr ⟨t, ht, hx⟩

theorem mem_foldr_union (l : List (Finset VarKey)) (x : VarKey) :
    x ∈ l.foldr (· ∪ ·) ∅ ↔ ∃ s ∈ l, x ∈ s := by
  induction l with
  | nil => simp
  | cons s rest ih => simp [ih]

theorem mem_nestedAll (models : List Model) (x : VarKey) :
    x ∈ nestedAll models ↔
      ∃ m ∈ models, ∃ s ∈ summedSetsOf m.constraints, x ∈ s := by
  simp only [nestedAll, mem_foldr_union, List.mem_flatMap]
  constructor
  · rintro ⟨s, ⟨m, hm, hs⟩, hx⟩
    exact ⟨m, hm, s, hs, hx⟩
  · rintro ⟨m, hm, s, hs, hx⟩
    exact ⟨s, ⟨m, hm, hs⟩, hx⟩

theorem depthOneFilter_ok_of_nonempty (mname : String) (vs : List Variable)
    (h : ∀ v ∈ vs, v.key.models ≠ []) :
    depthOneFilter mname vs =
      .ok (vs.filter fun v => decide (v.key.models.head? = some mname)) := by
  induction vs with
  | nil => rfl
  | cons v rest ih =>
    have hv := h v (List.mem_cons_self v rest)
    match hm : v.key.models with
    | [] => exact absurd hm hv
    | m :: ms =>
      have ihr := ih fun w hw => h w (List.mem_cons_of_mem v hw)
      simp only [depthOneFilter, hm, ihr, Except.map, List.filter_cons]
      by_cases hmn : m = mname
      · simp [hm, hmn]
      · simp [hm, hmn]

theorem depthOneFilter_error_of_empty (mname : String) (vs : List Variable)
    (h : ∃ v ∈ vs, v.key.models = []) :
    depthOneFilter mname vs = .error Err.indexError := by
  induction vs with
  | nil => simp at h
  | cons v rest ih =>
    match hm : v.key.models with
    | [] => simp [depthOneFilter, hm]
    | m :: ms =>
      obtain ⟨w, hw, hwe⟩ := h
      rcases List.mem_cons.mp hw with rfl | hw'
      · rw [hm] at hwe; exact absurd hwe (by simp)
      · have := ih ⟨w, hw', hwe⟩
        simp [depthOneFilter, hm, this, Except.map]

theorem depthOneFilter_ok_inv (mname : String) (vs : List Variable)
    (l : List Variable) (h : depthOneFilter mname vs = .ok l) :
    (∀ v ∈ vs, v.key.models ≠ []) ∧
      l = vs.filter fun v => decide (v.key.models.head? = some mname) := by
  have hne : ∀ v ∈ vs, v.key.models ≠ [] := by
    intro v hv hemp
    rw [depthOneFilter_error_of_empty mname vs ⟨v, hv, hemp⟩] at h
    exact Except.noConfusion h
  refine ⟨hne, ?_⟩
  rw [depthOneFilter_ok_of_nonempty mname vs hne] at h
  exact (Except.ok.injEq _ _ ▸ h.symm)

/-! ### Characterizations of the construction loop -/

/-- What success of the per-model loop guarantees: `alreadysummed` ends as the
initial set plus every nested `summedvars` set of every model; `summedvars`
only grows; every new member of `summedvars` is the key of a variable passing
the depth-one filter of some model; and every candidate of every model has a
non-empty provenance chain. -/
theorem constructLoop_ok_inv (varname : String) (models : List Model)
    (sv asum svOut asumOut : Finset VarKey)
    (h : constructLoop varname models sv asum = .ok (svOut, asumOut)) :
    (∀ x, x ∈ asumOut ↔ x ∈ asum ∨
        ∃ m ∈ models, ∃ s ∈ summedSetsOf m.constraints, x ∈ s) ∧
    (∀ x ∈ sv, x ∈ svOut) ∧
    (∀ x, x ∈ svOut → x ∈ sv ∨
        ∃ m ∈ models, ∃ v ∈ (coerce (m.lookup varname)).filter
          (fun v => decide (v.key.models.head? = some m.name)), v.key = x) ∧
    (∀ m ∈ models, ∀ v ∈ coerce (m.lookup varname), v.key.models ≠ []) := by
  induction models generalizing sv asum with
  | nil =>
    simp only [constructLoop, Except.ok.injEq, Prod.mk.injEq] at h
    obtain ⟨rfl, rfl⟩ := h
    refine ⟨by simp, fun x hx => hx, fun x hx => Or.inl hx, by simp⟩
  | cons model rest ih =>
    match hf : depthOneFilter model.name (coerce (model.lookup varname)) with
    | .error e =>
      exfalso
      simp only [constructLoop, hf] at h
      exact Except.noConfusion h
    | .ok mvars =>
      simp only [constructLoop, hf] at h
      by_cases hlen : mvars.length = 1
      · rw [if_pos hlen] at h
        obtain ⟨hchain, hcanon⟩ := depthOneFilter_ok_inv _ _ _ hf
        obtain ⟨ha, hmono, hsv, hch⟩ := ih _ _ h
        refine ⟨?_, ?_, ?_, ?_⟩
        · intro x
          rw [ha x, mem_foldl_union]
          simp only [List.mem_cons]
          constructor
          · rintro ((hx | ⟨s, hs, hxs⟩) | ⟨m, hm, hss⟩)
            · exact Or.inl hx
            · exact Or.inr ⟨model, Or.inl rfl, s, hs, hxs⟩
            · exact Or.inr ⟨m, Or.inr hm, hss⟩
          · rintro (hx | ⟨m, (rfl | hm), hss⟩)
            · exact Or.inl (Or.inl hx)
            · exact Or.inl (Or.inr hss)
            · exact Or.inr ⟨m, hm, hss⟩
        · intro x hx
          exact hmono x (Finset.mem_union_left _ hx)
        · intro x hx
          rcases hsv x hx with hx' | ⟨m, hm, v, hv, hvk⟩
          · rcases Finset.mem_union.mp hx' with hx'' | hx''
            · exact Or.inl hx''
            · rw [List.mem_toFinset, List.mem_map] at hx''
              obtain ⟨v, hv, hvk⟩ := hx''
              exact Or.inr ⟨model, List.mem_cons_self _ _,
                v, hcanon ▸ hv, hvk⟩
          · exact Or.inr ⟨m, List.mem_cons_of_mem _ hm, v, hv, hvk⟩
        · intro m hm v hv
          rcases List.mem_cons.mp hm with rfl | hm'
          · exact hchain v hv
          · exact hch m hm' v hv
      · rw [if_neg hlen] at h
        exact Except.noConfusion h

/-- Success with the matched variables listed explicitly: when each model's
depth-one filter yields exactly one variable, the loop succeeds and the final
sets are characterized exactly. -/
theorem constructLoop_ok_of_forall₂ (varname : String) (models : List Model)
    (vs : List Variable)
    (h : List.Forall₂ (fun m v =>
      depthOneFilter m.name (coerce (m.lookup varname)) = .ok [v]) models vs)
    (sv asum : Finset VarKey) :
    ∃ svOut asumOut, constructLoop varname models sv asum = .ok (svOut, asumOut) ∧
      (∀ x, x ∈ svOut ↔ x ∈ sv ∨ x ∈ vs.map Variable.key) ∧
      (∀ x, x ∈ asumOut ↔ x ∈ asum ∨
        ∃ m ∈ models, ∃ s ∈ summedSetsOf m.constraints, x ∈ s) := by
  induction h generalizing sv asum with
  | nil =>
    exact ⟨sv, asum, rfl, by simp, by simp⟩
  | @cons model v rest restv hmv _ ih =>
    obtain ⟨svOut, asumOut, hloop, hsv, ha⟩ :=
      ih (sv ∪ ([v].map Variable.key).toFinset)
        ((summedSetsOf model.constraints).foldl (fun a s => a ∪ s) asum)
    refine ⟨svOut, asumOut, ?_, ?_, ?_⟩
    · simp only [constructLoop, hmv, List.length_cons, List.length_nil,
        if_pos]
      exact hloop
    · intro x
      rw [hsv x]
      simp only [List.map_cons, List.map_nil, List.mem_toFinset,
        Finset.mem_union, List.mem_cons, List.not_mem_nil, or_false]
      tauto
    · intro x
      rw [ha x, mem_foldl_union]
      simp only [List.mem_cons]
      constructor
      · rintro ((hx | ⟨s, hs, hxs⟩) | ⟨m, hm, hss⟩)
        · exact Or.inl hx
        · exact Or.inr ⟨model, Or.inl rfl, s, hs, hxs⟩
        · exact Or.inr ⟨m, Or.inr hm, hss⟩
      · rintro (hx | ⟨m, (rfl | hm), hss⟩)
        · exact Or.inl (Or.inl hx)
        · exact Or.inl (Or.inr hss)
        · exact Or.inr ⟨m, hm, hss⟩

/-- The loop fails exactly when some model either has a candidate with an
empty provenance chain (IndexError) or does not expose exactly one depth-one
matching variable (AssertionError). -/
theorem constructLoop_error_iff (varname : String) (models : List Model)
    (sv asum : Finset VarKey) :
    (∃ e, constructLoop varname models sv asum = .error e) ↔
      ∃ m ∈ models, hasEmptyChain varname m ∨ ¬ exposesExactlyOne varname m := by
  induction models generalizing sv asum with
  | nil =>
    simp [constructLoop]
  | cons model rest ih =>
    match hf : depthOneFilter model.name (coerce (model.lookup varname)) with
    | .error e =>
      simp only [constructLoop, hf, List.mem_cons]
      constructor
      · intro _
        refine ⟨model, Or.inl rfl, Or.inl ?_⟩
        by_contra hno
        have hne : ∀ v ∈ coerce (model.lookup varname), v.key.models ≠ [] := by
          intro v hv hemp
          exact hno ⟨v, hv, hemp⟩
        rw [depthOneFilter_ok_of_nonempty _ _ hne] at hf
        exact Except.noConfusion hf
      · intro _
        exact ⟨e, rfl⟩
    | .ok mvars =>
      obtain ⟨hchain, hcanon⟩ := depthOneFilter_ok_inv _ _ _ hf
      have hexp : exposesExactlyOne varname model ↔ mvars.length = 1 := by
        unfold exposesExactlyOne
        rw [← hcanon]
      simp only [constructLoop, hf]
      by_cases hlen : mvars.length = 1
      · rw [if_pos hlen]
        rw [ih]
        simp only [List.mem_cons]
        constructor
        · rintro ⟨m, hm, hb⟩
          exact ⟨m, Or.inr hm, hb⟩
        · rintro ⟨m, (rfl | hm), hb⟩
          · rcases hb with hb | hb
            · obtain ⟨v, hv, hemp⟩ := hb
              exact absurd hemp (hchain v hv)
            · exact absurd (hexp.mpr hlen) hb
          · exact ⟨m, hm, hb⟩
      · rw [if_neg hlen]
        simp only [List.mem_cons]
        constructor
        · intro _
          exact ⟨model, Or.inl rfl, Or.inr fun hx => hlen (hexp.mp hx)⟩
        · intro _
          exact ⟨Err.assertionError, rfl⟩

theorem mem_matchedKeys (varname : String) (models : List Model) (x : VarKey) :
    x ∈ matchedKeys varname models ↔
      ∃ m ∈ models, ∃ v ∈ (coerce (m.lookup varname)).filter
        (fun v => decide (v.key.models.head? = some m.name)), v.key = x := by
  unfold matchedKeys
  rw [List.mem_toFinset, List.mem_flatMap]
  constructor
  · rintro ⟨m, hm, hx⟩
    rw [List.mem_map] at hx
    obtain ⟨v, hv, hvk⟩ := hx
    exact ⟨m, hm, v, hv, hvk⟩
  · rintro ⟨m, hm, v, hv, hvk⟩
    exact ⟨m, hm, List.mem_map.mpr ⟨v, hv, hvk⟩⟩

/-- When each model's depth-one filter returns exactly one variable, the keys
of those variables are exactly `matchedKeys`. -/
theorem forall₂_matchedKeys (varname : String) (models : List Model)
    (vs : List Variable)
    (h : List.Forall₂ (fun m v =>
      depthOneFilter m.name (coerce (m.lookup varname)) = .ok [v]) models vs)
    (x : VarKey) :
    x ∈ vs.map Variable.key ↔ x ∈ matchedKeys varname models := by
  induction h with
  | nil => simp [matchedKeys]
  | @cons m v ms restv hmv htail ih =>
    have hcanon := (depthOneFilter_ok_inv _ _ _ hmv).2
    rw [List.map_cons, List.mem_cons, ih, mem_matchedKeys, mem_matchedKeys]
    constructor
    · rintro (rfl | hx)
      · refine ⟨m, List.mem_cons_self _ _, v, ?_, rfl⟩
        rw [← hcanon]
        exact List.mem_singleton.mpr rfl
      · obtain ⟨n, hn, hv⟩ := hx
        exact ⟨n, List.mem_cons_of_mem _ hn, hv⟩
    · rintro ⟨n, hn, w, hw, hwk⟩
      rcases List.mem_cons.mp hn with rfl | hn
      · rw [← hcanon, List.mem_singleton] at hw
        subst hw
        exact Or.inl hwk.symm
      · exact Or.inr ⟨n, hn, w, hw, hwk⟩

/-- From "no empty-chain candidate and exactly one depth-one match" for every
listed sub-model, a list of the matched variables can be read off: each
model's depth-one filter succeeds with a one-element list. -/
theorem exists_matched_of_exactlyOne (varname : String) :
    ∀ models : List Model,
      (∀ m ∈ models,
        ¬ hasEmptyChain varname m ∧ exposesExactlyOne varname m) →
      ∃ vs, List.Forall₂ (fun m v =>
        depthOneFilter m.name (coerce (m.lookup varname)) = .ok [v])
        models vs := by
  intro models
  induction models with
  | nil =>
    intro _
    exact ⟨[], List.Forall₂.nil⟩
  | cons m ms ih =>
    intro h
    obtain ⟨vs, hvs⟩ := ih fun n hn => h n (List.mem_cons_of_mem _ hn)
    obtain ⟨hne, hone⟩ := h m (List.mem_cons_self _ _)
    have hchains : ∀ v ∈ coerce (m.lookup varname), v.key.models ≠ [] := by
      intro v hv hemp
      exact hne ⟨v, hv, hemp⟩
    have hfeq := depthOneFilter_ok_of_nonempty m.name _ hchains
    unfold exposesExactlyOne at hone
    obtain ⟨v, hv⟩ := List.length_eq_one.mp hone
    refine ⟨v :: vs, List.Forall₂.cons ?_ hvs⟩
    rw [hfeq, hv]

/-! ### Lemmas about the constructor -/

/-- Rebuilding a variable from a key's descriptor gives back the key. -/
theorem mkVariable_key (k : VarKey) : (mkVariable k.descr).key = k := rfl

/-- The `summedvars` property of the synthesized constraint recovers exactly
the set of keys the fresh variables were built from. -/
theorem summedvars_image (L : Type) (lhs : L) (F : Finset VarKey) :
    (SummingConstraintSet.mk [⟨lhs, F.image fun vk => mkVariable vk.descr⟩] :
      SummingConstraintSet L).summedvars = F := by
  unfold SummingConstraintSet.summedvars
  simp only [List.head?_cons]
  rw [Finset.image_image]
  have hfun : (Variable.key ∘ fun vk => mkVariable vk.descr) = id :=
    funext fun k => rfl
  rw [hfun, Finset.image_id]

/-- Inversion of a successful construction: the loop succeeded and the stored
object is the single synthesized constraint over the computed key set. -/
theorem construct_ok_inv {L : Type} (lhs : L) (varname : String)
    (models : List Model) (extraVars : List Variable)
    (s : SummingConstraintSet L)
    (h : SummingConstraintSet.construct lhs varname models extraVars = .ok s) :
    ∃ svOut asumOut,
      constructLoop varname models
        ((extraVars.map Variable.key).toFinset) ∅ = .ok (svOut, asumOut) ∧
      s = ⟨[⟨lhs, (svOut \ asumOut).image fun vk => mkVariable vk.descr⟩]⟩ := by
  match hl : constructLoop varname models
      ((extraVars.map Variable.key).toFinset) ∅ with
  | .error e =>
    exfalso
    simp only [SummingConstraintSet.construct, computedSummedvars, hl,
      Except.map] at h
    exact Except.noConfusion h
  | .ok p =>
    obtain ⟨svOut, asumOut⟩ := p
    refine ⟨svOut, asumOut, rfl, ?_⟩
    simp only [SummingConstraintSet.construct, computedSummedvars, hl,
      Except.map, Except.ok.injEq] at h
    exact h.symm

/-- Construction fails exactly when the loop fails. -/
theorem construct_error_iff_loop {L : Type} (lhs : L) (varname : String)
    (models : List Model) (extraVars : List Variable) :
    (∃ e, SummingConstraintSet.construct lhs varname models extraVars =
        .error e) ↔
      ∃ e, constructLoop varname models
        ((extraVars.map Variable.key).toFinset) ∅ = .error e := by
  match hl : constructLoop varname models
      ((extraVars.map Variable.key).toFinset) ∅ with
  | .error e =>
    simp only [SummingConstraintSet.construct, computedSummedvars, hl,
      Except.map]
    exact ⟨fun _ => ⟨e, rfl⟩, fun _ => ⟨e, rfl⟩⟩
  | .ok p =>
    simp only [SummingConstraintSet.construct, computedSummedvars, hl,
      Except.map]
    constructor
    · rintro ⟨e, he⟩
      exact Except.noConfusion he
    · rintro ⟨e, he⟩
      exact Except.noConfusion he

/-! ### Concrete inputs for witnesses and counterexamples

A tiny model universe: `M1` exposes a single depth-one variable `P`;
`MC` exposes one depth-one match plus a candidate with an empty provenance
chain; `M5` exposes a single depth-one match and contains a nested
`SummingConstraintSet` that already summed the key of the explicit extra
variable `vX`. -/

def dP : Descr := ⟨"P", ["M1"], "W", "power"⟩

def vP : Variable := ⟨⟨dP⟩⟩

def M1 : Model := ⟨"M1", fun _ => .single vP, []⟩

def dBad : Descr := ⟨"P", [], "W", "chainless"⟩

def vBad : Variable := ⟨⟨dBad⟩⟩

def dGoodC : Descr := ⟨"P", ["MC"], "W", "power"⟩

def vGoodC : Variable := ⟨⟨dGoodC⟩⟩

def MC : Model := ⟨"MC", fun _ => .many [vGoodC, vBad], []⟩

def dX : Descr := ⟨"x", ["E"], "W", "extra"⟩

def vX : Variable := ⟨⟨dX⟩⟩

def dP5 : Descr := ⟨"P", ["M5"], "W", "power"⟩

def vP5 : Variable := ⟨⟨dP5⟩⟩

def M5 : Model := ⟨"M5", fun _ => .single vP5, [.summing {vX.key}]⟩

/-! ### Claim theorems -/

/-- C1 counterexample: for the model `MC`, every listed sub-model exposes
exactly one depth-one variable named `P`, yet construction raises an error
(a second candidate has an empty provenance chain), so there is no resulting
`summedvars` set at all: the claim's antecedent does not suffice. -/
theorem summedvars_formula_cex :
    (∀ m ∈ [MC], exposesExactlyOne "P" m) ∧
      ¬ ∃ s : SummingConstraintSet Unit,
        SummingConstraintSet.construct () "P" [MC]
          ([] : List Variable) = .ok s := by
  refine ⟨by decide, ?_⟩
  rintro ⟨s, hs⟩
  have hc : SummingConstraintSet.construct () "P" [MC]
      ([] : List Variable) = .error Err.indexError := by decide
  rw [hc] at hs
  exact Except.noConfusion hs

/-- C1 (amended): when each listed sub-model has no candidate variable with
an empty provenance chain and exposes exactly one depth-one variable named
`varname`, construction succeeds and the resulting `summedvars` equals the
union of the keys of the explicitly supplied variables and the keys of each
sub-model's matched variable, minus the union of the `summedvars` of every
nested `SummingConstraintSet` found by flattening each sub-model's
constraint tree. -/
theorem summedvars_formula_amended {L : Type} (lhs : L) (varname : String)
    (models : List Model) (extraVars : List Variable)
    (h : ∀ m ∈ models,
      ¬ hasEmptyChain varname m ∧ exposesExactlyOne varname m) :
    (SummingConstraintSet.construct lhs varname models extraVars).map
        SummingConstraintSet.summedvars =
      .ok (((extraVars.map Variable.key).toFinset ∪
          matchedKeys varname models) \ nestedAll models) := by
  obtain ⟨vs, hvs⟩ := exists_matched_of_exactlyOne varname models h
  obtain ⟨svOut, asumOut, hloop, hsv, ha⟩ :=
    constructLoop_ok_of_forall₂ varname models vs hvs
      ((extraVars.map Variable.key).toFinset) ∅
  have hc : SummingConstraintSet.construct lhs varname models extraVars =
      .ok ⟨[⟨lhs, (svOut \ asumOut).image fun vk => mkVariable vk.descr⟩]⟩ := by
    simp only [SummingConstraintSet.construct, computedSummedvars, hloop,
      Except.map]
  have hkeys := forall₂_matchedKeys varname models vs hvs
  have hfinal : svOut \ asumOut =
      ((extraVars.map Variable.key).toFinset ∪
        matchedKeys varname models) \ nestedAll models := by
    ext x
    simp only [Finset.mem_sdiff, Finset.mem_union, hsv x, ha x, ← hkeys x,
      mem_nestedAll, Finset.not_mem_empty, false_or, List.mem_toFinset]
  rw [hc]
  simp only [Except.map]
  rw [summedvars_image, hfinal]

/-- C1 (amended) witness: one sub-model `M1` exposing variable `P` and no
explicit extra variables. -/
theorem summedvars_formula_amended_witness :
    (SummingConstraintSet.construct () "P" [M1] ([] : List Variable)).map
        SummingConstraintSet.summedvars =
      .ok (((([] : List Variable).map Variable.key).toFinset ∪
          matchedKeys "P" [M1]) \ nestedAll [M1]) :=
  summedvars_formula_amended () "P" [M1] [] (by decide)

/-- C2: for a successfully constructed `SummingConstraintSet` A and any
`summedvars` set of a nested `SummingConstraintSet` reachable by flattening
the constraint tree of one of A's sub-models, the intersection with
A's `summedvars` is empty (no double counting). -/
theorem no_double_counting {L : Type} (lhs : L) (varname : String)
    (models : List Model) (extraVars : List Variable)
    (a : SummingConstraintSet L)
    (hok : SummingConstraintSet.construct lhs varname models extraVars = .ok a)
    (m : Model) (hm : m ∈ models) (bsv : Finset VarKey)
    (hb : bsv ∈ summedSetsOf m.constraints) :
    a.summedvars ∩ bsv = ∅ := by
  obtain ⟨svOut, asumOut, hloop, rfl⟩ := construct_ok_inv _ _ _ _ _ hok
  obtain ⟨ha, _, _, _⟩ := constructLoop_ok_inv _ _ _ _ _ _ hloop
  rw [summedvars_image, Finset.eq_empty_iff_forall_not_mem]
  intro x hx
  rw [Finset.mem_inter, Finset.mem_sdiff] at hx
  exact hx.1.2 ((ha x).mpr (Or.inr ⟨m, hm, bsv, hb, hx.2⟩))

/-- C2 witness: the outer sum over `M5` excludes the key already summed by
the nested `SummingConstraintSet` inside `M5`. -/
theorem no_double_counting_witness :
    (⟨[⟨(), ({vP5} : Finset Variable)⟩]⟩ :
        SummingConstraintSet Unit).summedvars ∩ {vX.key} = ∅ :=
  no_double_counting () "P" [M5] [vX] ⟨[⟨(), {vP5}⟩]⟩ (by decide)
    M5 (List.mem_singleton.mpr rfl) {vX.key} (by decide)

/-- C3 counterexample: for the model `MC`, which exposes exactly one
depth-one variable named `P` but also a candidate with an empty provenance
chain, construction raises an error (IndexError) even though every listed
sub-model exposes exactly one depth-one match, so the stated `iff` fails. -/
theorem construct_error_iff_cex :
    ¬ ((∃ e, SummingConstraintSet.construct () "P" [MC]
          ([] : List Variable) = .error e) ↔
        ∃ m ∈ [MC], ¬ exposesExactlyOne "P" m) := by
  intro hiff
  obtain ⟨m, hm, hno⟩ := hiff.mp ⟨Err.indexError, by decide⟩
  rw [List.mem_singleton] at hm
  subst hm
  exact hno (by decide)

/-- C3 (amended): construction raises an error if and only if some listed
sub-model either has a candidate variable with an empty provenance chain or
does not expose exactly one variable named `varname` whose provenance
chain's first entry is that sub-model's name; the error is raised during
construction and no `SummingConstraintSet` object is produced. -/
theorem construct_error_iff {L : Type} (lhs : L) (varname : String)
    (models : List Model) (extraVars : List Variable) :
    (∃ e, SummingConstraintSet.construct lhs varname models extraVars =
        .error e) ↔
      ∃ m ∈ models,
        hasEmptyChain varname m ∨ ¬ exposesExactlyOne varname m := by
  rw [construct_error_iff_loop, constructLoop_error_iff]

/-- C4: a single (non-collection) lookup result is treated as a one-element
list; a successful depth-one filter keeps exactly the candidates whose
provenance chain's first entry equals the sub-model's own name; and every
key in `summedvars` not coming from the explicit variables is the key of a
variable that passed some sub-model's depth-one filter. -/
theorem lookup_coercion_filter :
    (∀ v : Variable, coerce (Lookup.single v) = [v]) ∧
    (∀ (mname : String) (vs l : List Variable),
      depthOneFilter mname vs = .ok l →
      l = vs.filter fun v => decide (v.key.models.head? = some mname)) ∧
    (∀ (L : Type) (lhs : L) (varname : String) (models : List Model)
      (extraVars : List Variable) (s : SummingConstraintSet L),
      SummingConstraintSet.construct lhs varname models extraVars = .ok s →
      ∀ k ∈ s.summedvars, k ∈ extraVars.map Variable.key ∨
        ∃ m ∈ models, ∃ v ∈ (coerce (m.lookup varname)).filter
          (fun v => decide (v.key.models.head? = some m.name)),
          v.key = k) := by
  refine ⟨fun v => rfl,
    fun mname vs l h => (depthOneFilter_ok_inv mname vs l h).2, ?_⟩
  intro L lhs varname models extraVars s hok k hk
  obtain ⟨svOut, asumOut, hloop, rfl⟩ := construct_ok_inv _ _ _ _ _ hok
  rw [summedvars_image] at hk
  obtain ⟨_, _, hsv, _⟩ := constructLoop_ok_inv _ _ _ _ _ _ hloop
  rcases hsv k (Finset.mem_sdiff.mp hk).1 with hseed | hmatch
  · exact Or.inl (List.mem_toFinset.mp hseed)
  · exact Or.inr hmatch

/-- C4 witness: the key summed for `M1` comes from its depth-one filtered
candidate. -/
theorem lookup_coercion_filter_witness :
    vP.key ∈ ([] : List Variable).map Variable.key ∨
      ∃ m ∈ [M1], ∃ v ∈ (coerce (m.lookup "P")).filter
        (fun v => decide (v.key.models.head? = some m.name)),
        v.key = vP.key :=
  lookup_coercion_filter.2.2 Unit () "P" [M1] []
    ⟨[⟨(), {vP}⟩]⟩ (by decide) vP.key (by decide)

/-- C5 counterexample: the explicitly supplied variable `vX` does not end
up in `summedvars` because the nested `SummingConstraintSet` inside `M5`
already summed its key: explicit extras are not folded in unconditionally. -/
theorem explicit_vars_cex :
    (SummingConstraintSet.construct () "P" [M5] [vX]).map
        SummingConstraintSet.summedvars = .ok {vP5.key} ∧
      vX.key ∉ ({vP5.key} : Finset VarKey) :=
  ⟨by decide, by decide⟩

/-- C5 (amended): each explicitly supplied variable's key is seeded into
`summedvars` and remains there exactly when it is not claimed by any nested
`SummingConstraintSet` found during traversal of the sub-models. -/
theorem explicit_vars_amended {L : Type} (lhs : L) (varname : String)
    (models : List Model) (extraVars : List Variable)
    (s : SummingConstraintSet L)
    (hok : SummingConstraintSet.construct lhs varname models extraVars = .ok s)
    (v : Variable) (hv : v ∈ extraVars) :
    v.key ∈ s.summedvars ↔ v.key ∉ nestedAll models := by
  obtain ⟨svOut, asumOut, hloop, rfl⟩ := construct_ok_inv _ _ _ _ _ hok
  obtain ⟨ha, hmono, _, _⟩ := constructLoop_ok_inv _ _ _ _ _ _ hloop
  rw [summedvars_image, Finset.mem_sdiff]
  have hin : v.key ∈ svOut :=
    hmono _ (List.mem_toFinset.mpr (List.mem_map.mpr ⟨v, hv, rfl⟩))
  have hna : v.key ∈ asumOut ↔ v.key ∈ nestedAll models := by
    rw [ha v.key, mem_nestedAll]
    simp
  constructor
  · intro hx hn
    exact hx.2 (hna.mpr hn)
  · intro hn
    exact ⟨hin, fun hmem => hn (hna.mp hmem)⟩

/-- C5 (amended) witness: with no nested summation in `M1`, the explicit
variable's key is kept. -/
theorem explicit_vars_amended_witness :
    vX.key ∈ (⟨[⟨(), ({vX, vP} : Finset Variable)⟩]⟩ :
        SummingConstraintSet Unit).summedvars ↔
      vX.key ∉ nestedAll [M1] :=
  explicit_vars_amended () "P" [M1] [vX] ⟨[⟨(), {vX, vP}⟩]⟩ (by decide)
    vX (List.mem_singleton.mpr rfl)

/-- C6: rebuilding a variable from a key's descriptor round-trips the key;
`summedvars` is a function of the stored constraints only (no separate
cache); and for a constructed object it equals the key set computed at
construction time. -/
theorem summedvars_single_source :
    (∀ k : VarKey, (mkVariable k.descr).key = k) ∧
    (∀ (L : Type) (s t : SummingConstraintSet L),
      s.constraints = t.constraints → s.summedvars = t.summedvars) ∧
    (∀ (L : Type) (lhs : L) (varname : String) (models : List Model)
      (extraVars : List Variable) (s : SummingConstraintSet L)
      (f : Finset VarKey),
      SummingConstraintSet.construct lhs varname models extraVars = .ok s →
      computedSummedvars varname models extraVars = .ok f →
      s.summedvars = f) := by
  refine ⟨fun k => rfl, ?_, ?_⟩
  · intro L s t hst
    unfold SummingConstraintSet.summedvars
    rw [hst]
  · intro L lhs varname models extraVars s f hok hcomp
    obtain ⟨svOut, asumOut, hloop, rfl⟩ := construct_ok_inv _ _ _ _ _ hok
    rw [summedvars_image]
    simp only [computedSummedvars, hloop, Except.map, Except.ok.injEq]
      at hcomp
    exact hcomp

/-- C6 witness: the property of the object constructed over `M1` returns
exactly the construction-time key set. -/
theorem summedvars_single_source_witness :
    (⟨[⟨(), ({vP} : Finset Variable)⟩]⟩ :
        SummingConstraintSet Unit).summedvars = {vP.key} :=
  summedvars_single_source.2.2 Unit () "P" [M1] [] ⟨[⟨(), {vP}⟩]⟩
    {vP.key} (by decide) (by decide)

/-- C7: a successfully constructed `SummingConstraintSet` holds exactly one
constraint, of the form `lhs >= sum` over one freshly constructed variable
per key of the computed `summedvars` set. -/
theorem single_constraint_shape {L : Type} (lhs : L) (varname : String)
    (models : List Model) (extraVars : List Variable)
    (s : SummingConstraintSet L)
    (hok : SummingConstraintSet.construct lhs varname models extraVars =
      .ok s) :
    s.constraints.length = 1 ∧
      s.constraints =
        [⟨lhs, s.summedvars.image fun vk => mkVariable vk.descr⟩] := by
  obtain ⟨svOut, asumOut, hloop, rfl⟩ := construct_ok_inv _ _ _ _ _ hok
  rw [summedvars_image]
  exact ⟨rfl, rfl⟩

/-- C7 witness: the object constructed over `M1` holds the single
constraint `lhs >= P_M1`. -/
theorem single_constraint_shape_witness :
    (⟨[⟨(), ({vP} : Finset Variable)⟩]⟩ :
        SummingConstraintSet Unit).constraints.length = 1 ∧
      (⟨[⟨(), ({vP} : Finset Variable)⟩]⟩ :
          SummingConstraintSet Unit).constraints =
        [⟨(), (⟨[⟨(), ({vP} : Finset Variable)⟩]⟩ :
            SummingConstraintSet Unit).summedvars.image
          fun vk => mkVariable vk.descr⟩] :=
  single_constraint_shape () "P" [M1] [] ⟨[⟨(), {vP}⟩]⟩ (by decide)

/-- C8: construction is deterministic — two objects constructed from the
same `lhs`, `varname`, `models` and `variables` have identical
`summedvars`. -/
theorem construct_deterministic {L : Type} (lhs : L) (varname : String)
    (models : List Model) (extraVars : List Variable)
    (s₁ s₂ : SummingConstraintSet L)
    (h₁ : SummingConstraintSet.construct lhs varname models extraVars =
      .ok s₁)
    (h₂ : SummingConstraintSet.construct lhs varname models extraVars =
      .ok s₂) :
    s₁.summedvars = s₂.summedvars := by
  rw [h₁] at h₂
  injection h₂ with h
  rw [h]

/-- C8 witness: two identical constructions over `M1`. -/
theorem construct_deterministic_witness :
    (⟨[⟨(), ({vP} : Finset Variable)⟩]⟩ :
        SummingConstraintSet Unit).summedvars =
      (⟨[⟨(), ({vP} : Finset Variable)⟩]⟩ :
        SummingConstraintSet Unit).summedvars :=
  construct_deterministic () "P" [M1] [] ⟨[⟨(), {vP}⟩]⟩ ⟨[⟨(), {vP}⟩]⟩
    (by decide) (by decide)

/-- C9: with no sub-models and no explicit variables, construction succeeds,
`summedvars` is empty, and the single stored constraint degenerates to
`lhs >= 0` (the sum over the empty set, here the empty term set). -/
theorem empty_inputs {L : Type} (lhs : L) (varname : String) :
    SummingConstraintSet.construct lhs varname [] [] =
        .ok ⟨[⟨lhs, (∅ : Finset Variable)⟩]⟩ ∧
      (⟨[⟨lhs, (∅ : Finset Variable)⟩]⟩ :
          SummingConstraintSet L).summedvars = ∅ := by
  constructor
  · simp [SummingConstraintSet.construct, computedSummedvars, constructLoop,
      Except.map]
  · unfold SummingConstraintSet.summedvars
    simp

/-- C10: a successful construction requires every candidate returned by each
sub-model's lookup to have a non-empty provenance chain; a candidate with an
empty chain makes the depth-one filter fail with the IndexError, which is
distinct from the exactly-one AssertionError. -/
theorem empty_chain_consequences :
    (∀ (L : Type) (lhs : L) (varname : String) (models : List Model)
      (extraVars : List Variable) (s : SummingConstraintSet L),
      SummingConstraintSet.construct lhs varname models extraVars = .ok s →
      ∀ m ∈ models, ∀ v ∈ coerce (m.lookup varname),
        v.key.models ≠ []) ∧
    (∀ (mname : String) (vs : List Variable),
      (∃ v ∈ vs, v.key.models = []) →
      depthOneFilter mname vs = .error Err.indexError) ∧
    Err.indexError ≠ Err.assertionError := by
  refine ⟨?_, depthOneFilter_error_of_empty, by decide⟩
  intro L lhs varname models extraVars s hok
  obtain ⟨svOut, asumOut, hloop, _⟩ := construct_ok_inv _ _ _ _ _ hok
  exact (constructLoop_ok_inv _ _ _ _ _ _ hloop).2.2.2

/-- C10 witness: the chainless candidate makes the filter raise the
IndexError. -/
theorem empty_chain_consequences_witness :
    depthOneFilter "M1" [vBad] = .error Err.indexError :=
  empty_chain_consequences.2.1 "M1" [vBad]
    ⟨vBad, List.mem_singleton.mpr rfl, rfl⟩

end GasMaleHelpers
